import Mathlib

/-!
Formal model of the eth-balances ERC-20 multicall pipeline (src/index.ts).

The TypeScript source is shallowly embedded: JS arrays become `List`, JS
objects (insertion-ordered string-keyed records built with the spread
pattern) become association lists with an update-or-append insert, thrown
exceptions become `Option`/`none`, and the relevant external library
functions from ethers v6 (ABI decoding, bytes32-string decoding, unit
formatting, address validation) are modelled explicitly from their
published semantics.  Return data travels as hex strings, exactly as the
source compares it.
-/

set_option maxRecDepth 8000

namespace EthBalances

/-! ## JS object model

A JS object used as a map: an insertion-ordered list of key-value pairs
with pairwise-distinct keys.  `insertObj` models the dynamic
spread-accumulation pattern of the source: updating an existing key keeps
its position, a fresh key is appended at the end. -/

abbrev Obj (α : Type) : Type := List (String × α)

def getObj {α : Type} (o : Obj α) (k : String) : Option α :=
  (o.find? (fun p => p.1 == k)).map (fun p => p.2)

def insertObj {α : Type} (o : Obj α) (k : String) (v : α) : Obj α :=
  if o.any (fun p => p.1 == k) then
    o.map (fun p => if p.1 == k then (k, v) else p)
  else
    o ++ [(k, v)]

def keysObj {α : Type} (o : Obj α) : List String :=
  o.map Prod.fst

/-! ## Chunker

Embedding of `chunk` (src/index.ts lines 340-357).  The JS loop keeps a
current chunk and pushes it when its length reaches `size`; the size is a
JS number compared with `===` against a nonnegative array length, so it is
modelled as an `Int` compared against the cast length. -/

def chunkStep {α : Type} (size : Int) (acc : List (List α) × List α) (item : α) :
    List (List α) × List α :=
  if (acc.2.length : Int) = size then (acc.1 ++ [acc.2], [item])
  else (acc.1, acc.2 ++ [item])

def chunk {α : Type} (array : List α) (size : Int) : List (List α) :=
  let s := array.foldl (chunkStep size) ([], [])
  if s.2.length ≠ 0 then s.1 ++ [s.2] else s.1

lemma chunkStep_foldl_flatten {α : Type} (size : Int) :
    ∀ (l : List α) (acc : List (List α) × List α),
      (l.foldl (chunkStep size) acc).1.flatten ++ (l.foldl (chunkStep size) acc).2 =
        acc.1.flatten ++ (acc.2 ++ l) := by
  intro l
  induction l with
  | nil => intro acc; simp
  | cons x xs ih =>
    intro acc
    rw [List.foldl_cons, ih]
    by_cases h : (acc.2.length : Int) = size
    · simp [chunkStep, h]
    · simp [chunkStep, h]

lemma flatten_chunk {α : Type} (l : List α) (size : Int) : (chunk l size).flatten = l := by
  have h := chunkStep_foldl_flatten size l ([], [])
  simp only [List.flatten, List.nil_append] at h
  unfold chunk
  by_cases h2 : (l.foldl (chunkStep size) ([], [])).2.length ≠ 0
  · rw [if_pos h2]
    rw [List.flatten_append]
    simpa using h
  · rw [if_neg h2]
    have h3 : (l.foldl (chunkStep size) ([], [])).2 = [] := by
      simpa using h2
    rw [h3, List.append_nil] at h
    simpa using h

lemma chunkStep_foldl_lengths {α : Type} (n : Int) (hn : 0 < n) :
    ∀ (l : List α) (acc : List (List α) × List α),
      (∀ c ∈ acc.1, (c.length : Int) = n) → ((acc.2.length : Int) ≤ n) →
      (∀ c ∈ (l.foldl (chunkStep n) acc).1, (c.length : Int) = n) ∧
        (((l.foldl (chunkStep n) acc).2.length : Int) ≤ n) := by
  intro l
  induction l with
  | nil => intro acc h1 h2; exact ⟨h1, h2⟩
  | cons x xs ih =>
    intro acc h1 h2
    rw [List.foldl_cons]
    by_cases h : (acc.2.length : Int) = n
    · have hstep : chunkStep n acc x = (acc.1 ++ [acc.2], [x]) := by
        simp [chunkStep, h]
      rw [hstep]
      apply ih
      · intro c hc
        rcases List.mem_append.mp hc with h3 | h3
        · exact h1 c h3
        · have h4 : c = acc.2 := by simpa using h3
          rw [h4]; exact h
      · simpa using hn
    · have hstep : chunkStep n acc x = (acc.1, acc.2 ++ [x]) := by
        simp [chunkStep, h]
      rw [hstep]
      apply ih
      · exact h1
      · simp only [List.length_append, List.length_singleton]
        push_cast
        omega

lemma chunkStep_foldl_neg {α : Type} (n : Int) (hn : n < 0) :
    ∀ (l : List α) (acc : List (List α) × List α),
      l.foldl (chunkStep n) acc = (acc.1, acc.2 ++ l) := by
  intro l
  induction l with
  | nil => intro acc; simp
  | cons x xs ih =>
    intro acc
    rw [List.foldl_cons]
    have hne : (acc.2.length : Int) ≠ n := by
      have : (0 : Int) ≤ (acc.2.length : Int) := Int.natCast_nonneg _
      omega
    have hstep : chunkStep n acc x = (acc.1, acc.2 ++ [x]) := by
      simp [chunkStep, hne]
    rw [hstep, ih]
    simp

lemma chunkStep_foldl_zero_ne {α : Type} :
    ∀ (l : List α) (acc : List (List α) × List α), acc.2 ≠ [] →
      l.foldl (chunkStep 0) acc = (acc.1, acc.2 ++ l) := by
  intro l
  induction l with
  | nil => intro acc _; simp
  | cons x xs ih =>
    intro acc hne
    rw [List.foldl_cons]
    have hlen : (acc.2.length : Int) ≠ 0 := by
      simpa using List.length_eq_zero.not.mpr hne
    have hstep : chunkStep 0 acc x = (acc.1, acc.2 ++ [x]) := by
      simp [chunkStep, hlen]
    rw [hstep, ih (acc.1, acc.2 ++ [x]) (by simp)]
    simp

/-- Claim C2: for positive size `n`, concatenating `chunk S n` reproduces `S`,
every group except possibly the last has length exactly `n`, every group has
length at most `n`, and chunking the empty list gives an empty list of groups
rather than a single empty group. -/
theorem chunk_spec {α : Type} (S : List α) (n : Int) (hn : 0 < n) :
    (chunk S n).flatten = S ∧
    (∀ c ∈ (chunk S n).dropLast, (c.length : Int) = n) ∧
    (∀ c ∈ chunk S n, (c.length : Int) ≤ n) ∧
    chunk ([] : List α) n = [] := by
  have hlen := chunkStep_foldl_lengths n hn S ([], [])
      (by intro c hc; simp at hc) (by simp; omega)
  refine ⟨flatten_chunk S n, ?_, ?_, by simp [chunk]⟩
  · intro c hc
    unfold chunk at hc
    by_cases h2 : (S.foldl (chunkStep n) ([], [])).2.length ≠ 0
    · rw [if_pos h2] at hc
      rw [List.dropLast_concat] at hc
      exact hlen.1 c hc
    · rw [if_neg h2] at hc
      exact hlen.1 c (List.dropLast_subset _ hc)
  · intro c hc
    unfold chunk at hc
    by_cases h2 : (S.foldl (chunkStep n) ([], [])).2.length ≠ 0
    · rw [if_pos h2] at hc
      rcases List.mem_append.mp hc with h3 | h3
      · rw [hlen.1 c h3]
      · have h4 : c = (S.foldl (chunkStep n) ([], [])).2 := by simpa using h3
        rw [h4]; exact hlen.2
    · rw [if_neg h2] at hc
      rw [hlen.1 c hc]

theorem chunk_spec_witness :
    (0 : Int) < 2 ∧
    ((chunk [1, 2, 3, 4, 5] (2 : Int)).flatten = [1, 2, 3, 4, 5] ∧
     (∀ c ∈ (chunk [1, 2, 3, 4, 5] (2 : Int)).dropLast, (c.length : Int) = 2) ∧
     (∀ c ∈ chunk [1, 2, 3, 4, 5] (2 : Int), (c.length : Int) ≤ 2) ∧
     chunk ([] : List Nat) (2 : Int) = []) :=
  ⟨by decide, chunk_spec [1, 2, 3, 4, 5] 2 (by decide)⟩

/-- Claim C8: `chunk` is total for every integer size: the concatenation of
the output always reproduces the input; for negative size a non-empty input
yields a single group holding all items; for size zero a non-empty input
yields an empty group followed by one group holding all items. -/
theorem chunk_degenerate_spec {α : Type} (S : List α) (n : Int) :
    (chunk S n).flatten = S ∧
    (n < 0 → S ≠ [] → chunk S n = [S]) ∧
    (S ≠ [] → chunk S 0 = [[], S]) := by
  refine ⟨flatten_chunk S n, ?_, ?_⟩
  · intro hn hS
    unfold chunk
    rw [chunkStep_foldl_neg n hn S ([], [])]
    simp [hS]
  · intro hS
    rcases S with _ | ⟨x, xs⟩
    · exact absurd rfl hS
    · unfold chunk
      rw [List.foldl_cons]
      have hstep : chunkStep 0 (([] : List (List α)), ([] : List α)) x = ([[]], [x]) := by
        simp [chunkStep]
      rw [hstep, chunkStep_foldl_zero_ne xs ([[]], [x]) (by simp)]
      simp

theorem chunk_degenerate_spec_witness :
    ((chunk [1, 2, 3] (-2 : Int)).flatten = [1, 2, 3] ∧
     chunk [1, 2, 3] (-2 : Int) = [[1, 2, 3]] ∧
     chunk [1, 2, 3] (0 : Int) = [[], [1, 2, 3]]) :=
  ⟨(chunk_degenerate_spec [1, 2, 3] (-2)).1,
   (chunk_degenerate_spec [1, 2, 3] (-2)).2.1 (by decide) (by decide),
   (chunk_degenerate_spec [1, 2, 3] (-2)).2.2 (by decide)⟩

/-! ## Call results and the balance result filter

A multicall result is a pair of a success flag and the raw return data,
carried as a hex string exactly as the source receives and compares it. -/

abbrev CallResult : Type := Bool × String

abbrev AssociatedCallResult : Type := String × Bool × String

/-- The library constant ZeroHash: 32 zero bytes as a lowercase hex string
of 66 characters. -/
def ZeroHash : String :=
  "0x0000000000000000000000000000000000000000000000000000000000000000"

/-- Embedding of getNonZeroResults (src/index.ts lines 113-127): pair each
result with the contract address at the same index, then keep the entries
whose data differs from ZeroHash and whose hex-string length equals the
ZeroHash length, that is exactly 32 bytes.  Indexing past the end of the
address list gives undefined in JS; the model substitutes a default string
there, and the claims only concern equal-length inputs where that branch is
never taken. -/
def getNonZeroResults (results : List CallResult) (contractAddresses : List String) :
    List AssociatedCallResult :=
  (results.enum.map (fun p => (contractAddresses.getD p.1 "", p.2.1, p.2.2))).filter
    (fun a => (a.2.2 != ZeroHash) && (a.2.2.length == ZeroHash.length))

/-- The keep condition in the words of the spec: the decoded balance is not
the all-zero 32-byte value and the returned byte length is exactly 32. -/
def keepResult (data : String) : Bool :=
  (data != ZeroHash) && (data.length == ZeroHash.length)

/-- The filter as the spec words it: zip the two equal-length sequences
positionally and keep exactly the entries satisfying the keep condition. -/
def getNonZeroResultsSpec (results : List CallResult) (contractAddresses : List String) :
    List AssociatedCallResult :=
  ((contractAddresses.zip results).map (fun q => (q.1, q.2.1, q.2.2))).filter
    (fun a => keepResult a.2.2)

/-- The 32-byte word whose last byte is one, as a hex string. -/
def oneWord32 : String :=
  "0x0000000000000000000000000000000000000000000000000000000000000001"

lemma drop_eq_getD_cons (l : List String) :
    ∀ k : Nat, k < l.length → l.drop k = l.getD k "" :: l.drop (k + 1) := by
  induction l with
  | nil => intro k hk; simp at hk
  | cons x xs ih =>
    intro k hk
    cases k with
    | zero => simp
    | succ m =>
      have hm : m < xs.length := by simpa using hk
      simpa using ih m hm

lemma enumFrom_assoc_eq_zip (full : List String) :
    ∀ (rs : List CallResult) (k : Nat), rs.length + k = full.length →
      (rs.enumFrom k).map (fun p => (full.getD p.1 "", p.2.1, p.2.2)) =
        ((full.drop k).zip rs).map (fun q => (q.1, q.2.1, q.2.2)) := by
  intro rs
  induction rs with
  | nil => intro k _; simp
  | cons r rest ih =>
    intro k hk
    have hklt : k < full.length := by
      simp only [List.length_cons] at hk
      omega
    rw [drop_eq_getD_cons full k hklt]
    simp only [List.enumFrom, List.map_cons, List.zip_cons_cons]
    rw [ih (k + 1) (by simp only [List.length_cons] at hk; omega)]

/-- Claim C1: with equal-length inputs, getNonZeroResults keeps an entry
exactly when its return data is not the all-zero 32-byte value and its byte
length is exactly 32, preserving input order and pairing each kept result
with the address at the same index; on the three-entry example of the spec
the output is exactly the single middle entry paired with its address. -/
theorem getNonZeroResults_correct (results : List CallResult) (contractAddresses : List String)
    (h : results.length = contractAddresses.length) :
    getNonZeroResults results contractAddresses =
      getNonZeroResultsSpec results contractAddresses ∧
    getNonZeroResults [(true, ZeroHash), (true, oneWord32), (true, "0xdead")] ["A", "B", "C"] =
      [("B", true, oneWord32)] := by
  constructor
  · unfold getNonZeroResults getNonZeroResultsSpec
    have he := enumFrom_assoc_eq_zip contractAddresses results 0 (by omega)
    rw [List.drop_zero] at he
    rw [List.enum, he]
    simp only [keepResult]
  · decide

theorem getNonZeroResults_correct_witness :
    ([((true : Bool), ZeroHash), (true, "0xdead")].length = ["X", "Y"].length) ∧
    (getNonZeroResults [(true, ZeroHash), (true, "0xdead")] ["X", "Y"] =
       getNonZeroResultsSpec [(true, ZeroHash), (true, "0xdead")] ["X", "Y"] ∧
     getNonZeroResults [(true, ZeroHash), (true, oneWord32), (true, "0xdead")] ["A", "B", "C"] =
       [("B", true, oneWord32)]) :=
  ⟨by decide, getNonZeroResults_correct [(true, ZeroHash), (true, "0xdead")] ["X", "Y"] (by decide)⟩

/-! ## Metadata call builder -/

structure Call where
  target : String
  callData : String
deriving DecidableEq

structure CallContext where
  contractAddress : String
  methodName : String
deriving DecidableEq

/-- Models the library encoding of a zero-argument call for the three
ERC-20 metadata methods: the four-byte selector of the method signature as
a hex string, with the well-known ERC-20 selector constants. -/
def encodeFunctionData (methodName : String) : String :=
  if methodName = "symbol" then "0x95d89b41"
  else if methodName = "decimals" then "0x313ce567"
  else if methodName = "name" then "0x06fdde03"
  else "0x"

def metaMethods : List String := ["symbol", "decimals", "name"]

/-- Embedding of buildCallsContext (src/index.ts lines 158-175): one triple
of calls and one triple of context entries per element of the input list,
with no deduplication of contract addresses. -/
def buildCallsContext (associatedResults : List AssociatedCallResult) :
    List Call × List CallContext :=
  let contractAddresses := associatedResults.map (fun r => r.1)
  (contractAddresses.flatMap (fun contractAddress =>
      metaMethods.map (fun methodName =>
        { target := contractAddress, callData := encodeFunctionData methodName })),
   contractAddresses.flatMap (fun contractAddress =>
      metaMethods.map (fun methodName =>
        { contractAddress := contractAddress, methodName := methodName })))

def dupAddressInput : List AssociatedCallResult :=
  [("0xaaa", true, "0x01"), ("0xaaa", true, "0x02")]

/-- Claim C3 counterexample: on an input holding two entries with the same
contract address, the builder emits six calls although only one distinct
address is present, so it does not emit three calls per distinct address. -/
theorem buildCallsContext_distinct_counterexample :
    ((buildCallsContext dupAddressInput).1.length = 6 ∧
     (dupAddressInput.map (fun r => r.1)).dedup.length = 1) ∧
    (buildCallsContext dupAddressInput).1.length ≠
      3 * (dupAddressInput.map (fun r => r.1)).dedup.length := by
  refine ⟨⟨by decide, by decide⟩, by decide⟩

lemma buildCallsContext_eq (l : List AssociatedCallResult) :
    buildCallsContext l =
      (l.flatMap (fun r => metaMethods.map (fun m =>
          { target := r.1, callData := encodeFunctionData m })),
       l.flatMap (fun r => metaMethods.map (fun m =>
          { contractAddress := r.1, methodName := m }))) := by
  unfold buildCallsContext
  simp only [List.flatMap_map]

/-- Claim C3 as amended: the builder emits exactly three calls and three
parallel context entries per input entry (per occurrence of a contract
address, in input order, without deduplication), in the method order
symbol, decimals, name; calls and context correspond positionally, the
target of each call being the contract address of the context entry at the
same position and its call data encoding that entry's method. -/
theorem buildCallsContext_per_entry (l : List AssociatedCallResult) :
    (buildCallsContext l).1.length = 3 * l.length ∧
    (buildCallsContext l).2.length = 3 * l.length ∧
    (buildCallsContext l).1.map (fun c => c.target) =
      (buildCallsContext l).2.map (fun c => c.contractAddress) ∧
    (buildCallsContext l).1.map (fun c => c.callData) =
      ((buildCallsContext l).2.map (fun c => c.methodName)).map encodeFunctionData ∧
    (buildCallsContext l).2 = l.flatMap (fun r =>
      [{ contractAddress := r.1, methodName := "symbol" },
       { contractAddress := r.1, methodName := "decimals" },
       { contractAddress := r.1, methodName := "name" }]) := by
  rw [buildCallsContext_eq]
  induction l with
  | nil => simp
  | cons r rest ih =>
    obtain ⟨ih1, ih2, ih3, ih4, ih5⟩ := ih
    refine ⟨?_, ?_, ?_, ?_, ?_⟩
    · simp only [List.flatMap_cons, List.length_append, List.length_cons, ih1]
      simp [metaMethods]
      omega
    · simp only [List.flatMap_cons, List.length_append, List.length_cons, ih2]
      simp [metaMethods]
      omega
    · simp only [List.flatMap_cons, List.map_append, ih3]
      simp [metaMethods]
    · simp only [List.flatMap_cons, List.map_append, ih4]
      simp [metaMethods]
    · simp only [List.flatMap_cons, ih5]
      simp [metaMethods]

/-! ## Raw balance data keyed by contract -/

/-- Embedding of resultDataByContract (src/index.ts lines 135-148): a
reduce over the associated results that accumulates an object keyed by
contract address, a later occurrence of the same address overwriting the
value while keeping the key position. -/
def resultDataByContract (associatedCallResults : List AssociatedCallResult) : Obj String :=
  associatedCallResults.foldl
    (fun balances result => insertObj balances result.1 result.2.2) []

lemma keysObj_insertObj_mem {α : Type} (o : Obj α) (k : String) (v : α)
    (h : o.any (fun p => p.1 == k) = true) :
    keysObj (insertObj o k v) = keysObj o := by
  unfold insertObj
  rw [if_pos h]
  unfold keysObj
  rw [List.map_map]
  apply List.map_congr_left
  intro p _
  by_cases hp : p.1 = k
  · simp [hp]
  · simp [hp]

lemma keysObj_insertObj_notMem {α : Type} (o : Obj α) (k : String) (v : α)
    (h : ¬ o.any (fun p => p.1 == k) = true) :
    keysObj (insertObj o k v) = keysObj o ++ [k] := by
  unfold insertObj
  rw [if_neg h]
  simp [keysObj]

lemma any_key_iff_mem {α : Type} (o : Obj α) (k : String) :
    o.any (fun p => p.1 == k) = true ↔ k ∈ keysObj o := by
  simp [keysObj, List.any_eq_true]

lemma mem_keysObj_insertObj {α : Type} (o : Obj α) (k a : String) (v : α) :
    a ∈ keysObj (insertObj o k v) ↔ a ∈ keysObj o ∨ a = k := by
  by_cases h : o.any (fun p => p.1 == k) = true
  · rw [keysObj_insertObj_mem o k v h]
    constructor
    · exact Or.inl
    · rintro (ha | rfl)
      · exact ha
      · exact (any_key_iff_mem o a).mp h
  · rw [keysObj_insertObj_notMem o k v h]
    simp

lemma nodup_keysObj_insertObj {α : Type} (o : Obj α) (k : String) (v : α)
    (h : (keysObj o).Nodup) : (keysObj (insertObj o k v)).Nodup := by
  by_cases hmem : o.any (fun p => p.1 == k) = true
  · rw [keysObj_insertObj_mem o k v hmem]
    exact h
  · rw [keysObj_insertObj_notMem o k v hmem]
    rw [List.nodup_append]
    refine ⟨h, List.nodup_singleton k, ?_⟩
    intro a ha hk
    have : a = k := by simpa using hk
    subst this
    exact hmem ((any_key_iff_mem o a).mpr ha)

lemma find?_map_update_self {α : Type} (k : String) (v : α) (o : List (String × α)) :
    ((o.map (fun p => if p.1 == k then (k, v) else p)).find? (fun p => p.1 == k)) =
      (o.find? (fun p => p.1 == k)).map (fun _ => (k, v)) := by
  induction o with
  | nil => rfl
  | cons q rest ih =>
    simp only [List.map_cons]
    by_cases hq : q.1 = k
    · have h1 : (if q.1 == k then (k, v) else q) = (k, v) := by simp [hq]
      rw [h1, List.find?_cons_of_pos _ (by simp),
          List.find?_cons_of_pos _ (by simpa using hq)]
      rfl
    · have h1 : (if q.1 == k then (k, v) else q) = q := by simp [hq]
      rw [h1, List.find?_cons_of_neg _ (by simpa using hq),
          List.find?_cons_of_neg _ (by simpa using hq)]
      exact ih

lemma find?_map_update_ne {α : Type} (k a : String) (v : α) (hak : a ≠ k)
    (o : List (String × α)) :
    ((o.map (fun p => if p.1 == k then (k, v) else p)).find? (fun p => p.1 == a)) =
      o.find? (fun p => p.1 == a) := by
  induction o with
  | nil => rfl
  | cons q rest ih =>
    simp only [List.map_cons, List.find?_cons]
    by_cases hq : q.1 = k
    · have h1 : (if q.1 == k then (k, v) else q) = (k, v) := by simp [hq]
      have hka : (((k, v) : String × α).1 == a) = false :=
        beq_eq_false_iff_ne.mpr (fun hc => hak hc.symm)
      have hqa : (q.1 == a) = false :=
        beq_eq_false_iff_ne.mpr (fun hc => hak (hc.symm.trans hq))
      rw [h1, hka, hqa]
      simp only [Bool.cond_false]
      exact ih
    · have h1 : (if q.1 == k then (k, v) else q) = q := by simp [hq]
      rw [h1]
      cases hqa : (q.1 == a) with
      | true => rfl
      | false => exact ih

lemma getObj_insertObj_self {α : Type} (o : Obj α) (k : String) (v : α) :
    getObj (insertObj o k v) k = some v := by
  unfold insertObj
  by_cases h : o.any (fun p => p.1 == k) = true
  · rw [if_pos h]
    unfold getObj
    rw [find?_map_update_self]
    rw [List.any_eq_true] at h
    obtain ⟨p0, hp0, hbeq⟩ := h
    have hsome : (o.find? fun p => p.1 == k).isSome = true := by
      apply List.find?_isSome.mpr
      exact ⟨p0, hp0, hbeq⟩
    cases hfind : (o.find? fun p => p.1 == k) with
    | none => rw [hfind] at hsome; simp at hsome
    | some p => simp
  · rw [if_neg h]
    unfold getObj
    rw [List.find?_append]
    have hnone : (o.find? fun p => p.1 == k) = none := by
      apply List.find?_eq_none.mpr
      intro p hp
      intro hc
      exact h (List.any_eq_true.mpr ⟨p, hp, hc⟩)
    rw [hnone]
    simp

lemma getObj_insertObj_ne {α : Type} (o : Obj α) (k a : String) (v : α)
    (hak : a ≠ k) : getObj (insertObj o k v) a = getObj o a := by
  unfold insertObj
  by_cases h : o.any (fun p => p.1 == k) = true
  · rw [if_pos h]
    unfold getObj
    rw [find?_map_update_ne k a v hak]
  · rw [if_neg h]
    unfold getObj
    rw [List.find?_append]
    have hlast : ([(k, v)].find? fun p => p.1 == a) = none := by
      have : (k == a) = false := by simpa using (Ne.symm hak)
      simp [this]
    rw [hlast]
    simp

/-- Claim C9: resultDataByContract yields a map with pairwise-distinct
keys, holding exactly one key per distinct contract address occurring in
the input, and the value stored for each key is the return data of the
last input occurrence of that address. -/
theorem resultDataByContract_spec (l : List AssociatedCallResult) :
    (keysObj (resultDataByContract l)).Nodup ∧
    (∀ a, a ∈ keysObj (resultDataByContract l) ↔ a ∈ l.map (fun r => r.1)) ∧
    (∀ a, getObj (resultDataByContract l) a =
      ((l.filter (fun r => r.1 == a)).getLast?).map (fun r => r.2.2)) := by
  unfold resultDataByContract
  induction l using List.reverseRecOn with
  | nil =>
    refine ⟨List.nodup_nil, ?_, ?_⟩
    · intro a; simp [keysObj]
    · intro a; simp [getObj]
  | append_singleton rest r ih =>
    obtain ⟨ih1, ih2, ih3⟩ := ih
    rw [List.foldl_append, List.foldl_cons, List.foldl_nil]
    refine ⟨nodup_keysObj_insertObj _ _ _ ih1, ?_, ?_⟩
    · intro a
      rw [mem_keysObj_insertObj, ih2 a]
      simp
    · intro a
      by_cases ha : a = r.1
      · subst ha
        rw [getObj_insertObj_self]
        rw [List.filter_append]
        have hr : List.filter (fun x => x.1 == r.1) [r] = [r] := by simp
        rw [hr, List.getLast?_concat]
        simp
      · rw [getObj_insertObj_ne _ _ _ _ ha, ih3 a]
        rw [List.filter_append]
        have hra : (r.1 == a) = false := by
          simpa using fun hc => ha ((by simpa using hc : r.1 = a)).symm
        have hempty : (List.filter (fun x => x.1 == a) [r]) = [] := by
          simp [hra]
        rw [hempty, List.append_nil]

/-! ## Address resolver

Embedding of getAddress (src/index.ts lines 256-269).  The provider is
modelled as its network id (a bigint) together with its name-resolution
map; the calls the function makes against the provider are recorded so
that the no-network-call property is statable.  The two thrown errors are
modelled as constructors: invalidENS for the message about an invalid ENS
domain, unsupportedNetwork (carrying the chain id interpolated into the
message) for the unsupported-chain message. -/

inductive ProviderCall where
  | getNetwork : ProviderCall
  | resolveName (name : String) : ProviderCall
deriving DecidableEq

structure ProviderModel where
  chainId : Int
  resolve : String → Option String

inductive AddressError where
  | invalidENS : AddressError
  | unsupportedNetwork (chainId : Int) : AddressError
deriving DecidableEq

def isHexDigitChar (c : Char) : Bool :=
  c.isDigit || ('a' ≤ c && c ≤ 'f') || ('A' ≤ c && c ≤ 'F')

/-- Models the library address validator isAddress: a 0x-prefixed string of
40 hexadecimal digits.  The EIP-55 checksum validation of mixed-case
addresses requires keccak and is not modelled: the model accepts the
all-lowercase and all-uppercase forms, which is the portion the claims
exercise; no claim depends on the checksum branch. -/
def isAddress (s : String) : Bool :=
  match s.toList with
  | '0' :: 'x' :: body =>
      (body.length == 40) && body.all isHexDigitChar &&
        (body.all (fun c => !(('A' ≤ c) && (c ≤ 'F'))) ||
         body.all (fun c => !(('a' ≤ c) && (c ≤ 'f'))))
  | _ => false

/-- JS string truthiness: the empty string is falsy. -/
def jsTruthyString (s : String) : Bool := s != ""

def getAddress (addressOrName : String) (p : ProviderModel) :
    Except AddressError String × List ProviderCall :=
  if isAddress addressOrName then (.ok addressOrName, [])
  else if p.chainId = 1 then
    match p.resolve addressOrName with
    | some address =>
        if jsTruthyString address then
          (.ok address, [.getNetwork, .resolveName addressOrName])
        else
          (.error .invalidENS, [.getNetwork, .resolveName addressOrName])
    | none => (.error .invalidENS, [.getNetwork, .resolveName addressOrName])
  else (.error (.unsupportedNetwork p.chainId), [.getNetwork])

/-- Claim C5: an input that already validates as an address is returned
unchanged with no provider call; otherwise a network id other than 1 fails
with the unsupported-network error naming the chain id, network 1 with an
unresolvable name fails with the invalid-ENS error, and network 1 with a
name resolving to a non-empty address returns that address; every error
getAddress itself produces is one of those two, under the matching network
condition. -/
theorem getAddress_spec (input : String) (p : ProviderModel) :
    (isAddress input = true → getAddress input p = (.ok input, [])) ∧
    (isAddress input = false → p.chainId ≠ 1 →
      getAddress input p = (.error (.unsupportedNetwork p.chainId), [.getNetwork])) ∧
    (isAddress input = false → p.chainId = 1 → p.resolve input = none →
      getAddress input p = (.error .invalidENS, [.getNetwork, .resolveName input])) ∧
    (isAddress input = false → p.chainId = 1 →
      ∀ a, p.resolve input = some a → a ≠ "" →
        getAddress input p = (.ok a, [.getNetwork, .resolveName input])) ∧
    (∀ e calls, getAddress input p = (.error e, calls) →
      isAddress input = false ∧
      ((p.chainId ≠ 1 ∧ e = .unsupportedNetwork p.chainId) ∨
       (p.chainId = 1 ∧ e = .invalidENS))) := by
  refine ⟨?_, ?_, ?_, ?_, ?_⟩
  · intro h
    simp [getAddress, h]
  · intro h h1
    simp [getAddress, h, h1]
  · intro h h1 h2
    simp [getAddress, h, h1, h2]
  · intro h h1 a h2 h3
    simp [getAddress, h, h1, h2, jsTruthyString, h3]
  · intro e calls
    unfold getAddress
    by_cases h : isAddress input
    · rw [if_pos h]
      intro hc
      exact absurd (congrArg Prod.fst hc) (by simp)
    · rw [if_neg h]
      by_cases h1 : p.chainId = 1
      · rw [if_pos h1]
        cases hres : p.resolve input with
        | some a =>
          dsimp only
          by_cases ht : jsTruthyString a
          · rw [if_pos ht]
            intro hc
            exact absurd (congrArg Prod.fst hc) (by simp)
          · rw [if_neg ht]
            intro hc
            have he : e = .invalidENS := by
              have := congrArg Prod.fst hc
              simpa using this.symm
            exact ⟨by simpa using h, Or.inr ⟨h1, he⟩⟩
        | none =>
          intro hc
          have he : e = .invalidENS := by
            have := congrArg Prod.fst hc
            simpa using this.symm
          exact ⟨by simpa using h, Or.inr ⟨h1, he⟩⟩
      · rw [if_neg h1]
        intro hc
        have he : e = .unsupportedNetwork p.chainId := by
          have := congrArg Prod.fst hc
          simpa using this.symm
        exact ⟨by simpa using h, Or.inl ⟨h1, he⟩⟩

def mainnetProvider : ProviderModel :=
  { chainId := 1,
    resolve := fun s =>
      if s == "vitalik.eth" then some "0xd8da6bf26964af9d7eed9e03e53415d37aa96045" else none }

theorem getAddress_spec_witness :
    (isAddress "vitalik.eth" = false ∧ mainnetProvider.chainId = 1 ∧
     mainnetProvider.resolve "vitalik.eth" =
       some "0xd8da6bf26964af9d7eed9e03e53415d37aa96045" ∧
     "0xd8da6bf26964af9d7eed9e03e53415d37aa96045" ≠ "") ∧
    getAddress "vitalik.eth" mainnetProvider =
      (.ok "0xd8da6bf26964af9d7eed9e03e53415d37aa96045",
       [.getNetwork, .resolveName "vitalik.eth"]) :=
  ⟨⟨by decide, by decide, by decide, by decide⟩,
   (getAddress_spec "vitalik.eth" mainnetProvider).2.2.2.1 (by decide) (by decide)
     "0xd8da6bf26964af9d7eed9e03e53415d37aa96045" (by decide) (by decide)⟩

/-! ## Hex data and ABI decoding models -/

def hexVal (c : Char) : Option Nat :=
  if c.isDigit then some (c.toNat - 48)
  else if 'a' ≤ c && c ≤ 'f' then some (c.toNat - 87)
  else if 'A' ≤ c && c ≤ 'F' then some (c.toNat - 55)
  else none

def hexPairsToBytes : List Char → Option (List Nat)
  | [] => some []
  | [_] => none
  | c1 :: c2 :: rest => do
      let hi ← hexVal c1
      let lo ← hexVal c2
      let bs ← hexPairsToBytes rest
      pure ((16 * hi + lo) :: bs)

/-- Models the library conversion of hex-string return data to bytes: the
string must carry a 0x prefix followed by an even number of hex digits. -/
def hexToBytes (s : String) : Option (List Nat) :=
  match s.toList with
  | '0' :: 'x' :: rest => hexPairsToBytes rest
  | _ => none

def bytesToNat (bs : List Nat) : Nat :=
  bs.foldl (fun acc b => 256 * acc + b) 0

/-- Reads the 32-byte big-endian word at a byte offset, failing out of
bounds like the library reader. -/
def wordAt (bs : List Nat) (off : Nat) : Option Nat :=
  if off + 32 ≤ bs.length then some (bytesToNat ((bs.drop off).take 32)) else none

def asciiChar (b : Nat) : Option Char :=
  if b < 128 then some (Char.ofNat b) else none

/-- UTF-8 decoding of payload bytes, modelled for ASCII payloads only: a
non-ASCII byte is treated as a decode failure.  The claims only exercise
ASCII payloads. -/
def asciiString (bs : List Nat) : Option String :=
  (bs.mapM asciiChar).map (fun cs => String.mk cs)

/-- Models the ethers v6 ABI number-coder decode: read one 32-byte word and
mask it to the bit width of the type.  The v6 decoder masks instead of
range-checking, so every well-formed word decodes. -/
def abiDecodeUint (bits : Nat) (data : String) : Option Nat := do
  let bs ← hexToBytes data
  let w ← wordAt bs 0
  pure (w % 2 ^ bits)

/-- Models the v6 boolean coder decode: one word, compared against zero. -/
def abiDecodeBool (data : String) : Option Bool := do
  let bs ← hexToBytes data
  let w ← wordAt bs 0
  pure (w != 0)

/-- Models the v6 dynamic string decode: word 0 is the payload offset and
must convert to a safe JS integer, at that offset lies the length word
followed by that many payload bytes; any out-of-bounds read fails. -/
def abiDecodeString (data : String) : Option String := do
  let bs ← hexToBytes data
  let off ← wordAt bs 0
  if off ≤ 2 ^ 53 then
    let len ← wordAt bs off
    if off + 32 + len ≤ bs.length then
      asciiString ((bs.drop (off + 32)).take len)
    else none
  else none

/-- Models the library decodeBytes32String: the data must be exactly 32
bytes ending in a zero byte; the value is the bytes before the first zero
byte, decoded as text. -/
def decodeBytes32String (data : String) : Option String := do
  let bs ← hexToBytes data
  if bs.length = 32 then
    if bs.getLast? = some 0 then
      asciiString (bs.take (bs.findIdx (fun b => b == 0)))
    else none
  else none

/-! ## JS numbers

Number values are modelled exactly: NaN, signed infinity, or a rational
value.  Float64 rounding is not modelled; the claims depend only on the
NaN/non-NaN distinction and on small integers, which float64 represents
exactly. -/

inductive JsNum where
  | nan : JsNum
  | inf (negative : Bool) : JsNum
  | num (value : ℚ) : JsNum
deriving DecidableEq

def jsWhitespace (c : Char) : Bool :=
  c = ' ' || c = '\t' || c = '\n' || c = '\r' || c.toNat = 11 || c.toNat = 12

def jsTrim (s : String) : List Char :=
  ((s.toList.dropWhile jsWhitespace).reverse.dropWhile jsWhitespace).reverse

def foldDecDigits (l : List Char) : Nat :=
  l.foldl (fun acc c => 10 * acc + (c.toNat - 48)) 0

def radixDigitsVal (radix : Nat) (l : List Char) : Option Nat :=
  if l.isEmpty then none
  else l.foldlM (fun acc c => do
    let v ← hexVal c
    if v < radix then some (radix * acc + v) else none) 0

/-- Parses the mantissa of a JS decimal literal: digits, optionally a dot
and further digits, with at least one digit in total.  Returns the digit
value and the count of fractional digits. -/
def parseMantissa (l : List Char) : Option (Nat × Nat) :=
  let intPart := l.takeWhile (fun c => c.isDigit)
  let rest := l.dropWhile (fun c => c.isDigit)
  match rest with
  | [] => if intPart.isEmpty then none else some (foldDecDigits intPart, 0)
  | '.' :: frac =>
      if frac.all (fun c => c.isDigit) && !(intPart.isEmpty && frac.isEmpty) then
        some (foldDecDigits (intPart ++ frac), frac.length)
      else none
  | _ => none

def parseExpPart : List Char → Option Int
  | [] => none
  | '+' :: ds =>
      if ds.isEmpty || !ds.all (fun c => c.isDigit) then none
      else some (Int.ofNat (foldDecDigits ds))
  | '-' :: ds =>
      if ds.isEmpty || !ds.all (fun c => c.isDigit) then none
      else some (-(Int.ofNat (foldDecDigits ds)))
  | ds =>
      if !ds.all (fun c => c.isDigit) then none
      else some (Int.ofNat (foldDecDigits ds))

def qOfParts (mant : Nat × Nat) (e : Int) : ℚ :=
  (mant.1 : ℚ) * (10 : ℚ) ^ (e - (mant.2 : Int))

def parseUnsignedDec (l : List Char) : Option ℚ :=
  let mantPart := l.takeWhile (fun c => !(c = 'e' || c = 'E'))
  let expRest := l.dropWhile (fun c => !(c = 'e' || c = 'E'))
  match expRest with
  | [] => (parseMantissa mantPart).map (fun mv => qOfParts mv 0)
  | _ :: expPart => do
      let mv ← parseMantissa mantPart
      let e ← parseExpPart expPart
      pure (qOfParts mv e)

def parsePositiveJs (l : List Char) : Option JsNum :=
  if l = ['I', 'n', 'f', 'i', 'n', 'i', 't', 'y'] then some (.inf false)
  else (parseUnsignedDec l).map (fun q => .num q)

/-- Models the JS Number(string) coercion on trimmed characters: the empty
input is zero, radix-prefixed integer literals, optionally signed decimal
literals with fraction and exponent, and the Infinity forms; every other
input has no numeric value and the caller yields NaN. -/
def parseJsNumber : List Char → Option JsNum
  | [] => some (.num 0)
  | '0' :: c :: rest =>
      if c = 'x' || c = 'X' then (radixDigitsVal 16 rest).map (fun n => .num (n : ℚ))
      else if c = 'b' || c = 'B' then (radixDigitsVal 2 rest).map (fun n => .num (n : ℚ))
      else if c = 'o' || c = 'O' then (radixDigitsVal 8 rest).map (fun n => .num (n : ℚ))
      else parsePositiveJs ('0' :: c :: rest)
  | '+' :: rest => parsePositiveJs rest
  | '-' :: rest =>
      match parsePositiveJs rest with
      | some (.inf _) => some (.inf true)
      | some (.num q) => some (.num (-q))
      | other => other
  | l => parsePositiveJs l

def jsNumber (s : String) : JsNum :=
  match parseJsNumber (jsTrim s) with
  | some n => n
  | none => .nan

def isNumericString (s : String) : Bool :=
  (parseJsNumber (jsTrim s)).isSome

/-! ## Metadata decoder -/

/-- A decoded method value as the JS code stores it: a string, a number,
or a boolean. -/
inductive MethodValue where
  | str (s : String) : MethodValue
  | num (n : JsNum) : MethodValue
  | boolean (b : Bool) : MethodValue
deriving DecidableEq

/-- Models the JS Number(x) coercion applied to a decoded method value. -/
def coerceNumber : MethodValue → MethodValue
  | .str s => .num (jsNumber s)
  | .num n => .num n
  | .boolean b => .num (.num (if b then 1 else 0))

/-- The method-to-output-type table the source builds at lines 18-30 from
the OpenZeppelin ERC-20 ABI: the first output type of each function. -/
def fragmentTypes : Obj String :=
  [("name", "string"), ("symbol", "string"), ("decimals", "uint8"),
   ("totalSupply", "uint256"), ("balanceOf", "uint256"),
   ("transfer", "bool"), ("allowance", "uint256"), ("approve", "bool"),
   ("transferFrom", "bool"), ("increaseAllowance", "bool"),
   ("decreaseAllowance", "bool")]

/-- The standard decode step of decodeMetaResults: look up the expected
output type for the method and ABI-decode the data as that type; none
models any thrown decode error, including a method missing from the
table. -/
def stdDecode (methodName : String) (data : String) : Option MethodValue :=
  match getObj fragmentTypes methodName with
  | none => none
  | some ty =>
      if ty = "string" then (abiDecodeString data).map MethodValue.str
      else if ty = "uint8" then
        (abiDecodeUint 8 data).map (fun (n : Nat) => MethodValue.num (.num (n : ℚ)))
      else if ty = "uint256" then
        (abiDecodeUint 256 data).map (fun (n : Nat) => MethodValue.num (.num (n : ℚ)))
      else if ty = "bool" then (abiDecodeBool data).map MethodValue.boolean
      else none

def infoMsg (methodName contractAddress : String) : String :=
  "Problem decoding " ++ methodName ++ " for " ++ contractAddress ++
    ". The contract is likely not ERC-20 compliant."

def applyDecimalsCoercion (methodName : String) (v : MethodValue) : MethodValue :=
  if methodName = "decimals" then coerceNumber v else v

/-- One entry of the decodeMetaResults reduce (src/index.ts lines 188-214):
try the standard decode and on a thrown error fall back to the
bytes32-string decode, emitting the informational diagnostic; a throwing
fallback propagates, modelled as none.  The decimals coercion applies to
the value of either path. -/
def decodeEntry (result : CallResult) (ctx : CallContext) :
    Option (MethodValue × Option String) :=
  match stdDecode ctx.methodName result.2 with
  | some v => some (applyDecimalsCoercion ctx.methodName v, none)
  | none =>
      match decodeBytes32String result.2 with
      | some s =>
          some (applyDecimalsCoercion ctx.methodName (.str s),
                some (infoMsg ctx.methodName ctx.contractAddress))
      | none => none

/-- The nested spread accumulation of decodeMetaResults: set one method
field inside the per-contract record of the outer object. -/
def insertNested (meta : Obj (Obj MethodValue)) (addr methodName : String)
    (v : MethodValue) : Obj (Obj MethodValue) :=
  insertObj meta addr (insertObj ((getObj meta addr).getD []) methodName v)

def decodeMetaGo : List CallResult → List CallContext → Obj (Obj MethodValue) →
    List String → Option (Obj (Obj MethodValue) × List String)
  | [], _, meta, infos => some (meta, infos)
  | _ :: _, [], _, _ => none
  | r :: rs, c :: cs, meta, infos =>
      match decodeEntry r c with
      | none => none
      | some (v, msg) =>
          decodeMetaGo rs cs (insertNested meta c.contractAddress c.methodName v)
            (infos ++ msg.toList)

/-- Embedding of decodeMetaResults (src/index.ts lines 184-215): the reduce
over metaResults pairing each with context[index], accumulating the nested
object and collecting the console diagnostics; indexing past the end of
the context list destructures undefined and throws, and a throwing
fallback decode propagates, both modelled as none. -/
def decodeMetaResults (metaResults : List CallResult) (context : List CallContext) :
    Option (Obj (Obj MethodValue) × List String) :=
  decodeMetaGo metaResults context [] []

/-! ## Balance normalizer -/

def trimLeadingZerosKeepOne (l : List Char) : List Char :=
  match l.dropWhile (fun c => c = '0') with
  | [] => ['0']
  | r => r

/-- Models the fixed-point rendering inside ethers v6 formatUnits: pad the
decimal digits of the value until a whole part exists, insert the decimal
point, then trim leading zeros of the whole part and trailing zeros of the
fractional part, keeping at least one digit on each side. -/
def formatFixed (val : Nat) (decimals : Nat) : String :=
  if decimals = 0 then Nat.repr val
  else
    let str := (Nat.repr val).toList
    let str := List.replicate (decimals + 1 - str.length) '0' ++ str
    let idx := str.length - decimals
    let whole := trimLeadingZerosKeepOne (str.take idx)
    let frac := (trimLeadingZerosKeepOne (str.drop idx).reverse).reverse
    String.mk (whole ++ '.' :: frac)

def unitNames : List String :=
  ["wei", "kwei", "mwei", "gwei", "szabo", "finney", "ether"]

/-- Models the library formatUnits applied to the stored decimals value:
an absent unit defaults to 18 decimals, a string unit must be one of the
unit names, a numeric unit must be a nonnegative integer of at most 80;
everything else throws, modelled as none. -/
def formatUnits (value : Nat) (unit : Option MethodValue) : Option String :=
  match unit with
  | none => some (formatFixed value 18)
  | some (.str s) =>
      match unitNames.findIdx? (fun n => n == s) with
      | some i => some (formatFixed value (3 * i))
      | none => none
  | some (.num (.num q)) =>
      if q.den = 1 ∧ 0 ≤ q.num ∧ q.num ≤ 80 then
        some (formatFixed value q.num.toNat)
      else none
  | some (.num _) => none
  | some (.boolean _) => none

/-- One iteration of the balancesByContract reduce: look up the metadata
entry and raw balance of the contract, decode the balance as a uint256,
render it through formatUnits when formatBalance is set, and merge the
balance string into the metadata entry under the balanceOf key. -/
def normalizeStep (metaDataByContract : Obj (Obj MethodValue))
    (balanceDataByContract : Obj String) (formatBalance : Bool)
    (balances : Obj (Obj MethodValue)) (contractAddress : String) :
    Option (Obj (Obj MethodValue)) := do
  let metaEntry := (getObj metaDataByContract contractAddress).getD []
  let balanceHexString ← getObj balanceDataByContract contractAddress
  let decoded ← abiDecodeUint 256 balanceHexString
  let balance ←
    if formatBalance then formatUnits decoded (getObj metaEntry "decimals")
    else some (Nat.repr decoded)
  pure (insertObj balances contractAddress
    (insertObj metaEntry "balanceOf" (.str balance)))

/-- Embedding of balancesByContract (src/index.ts lines 225-247): the
reduce of normalizeStep over the keys of the metadata object; a missing
raw entry, a failing decode or a failing format throws, modelled as
none. -/
def balancesByContract (metaDataByContract : Obj (Obj MethodValue))
    (balanceDataByContract : Obj String) (formatBalance : Bool) :
    Option (Obj (Obj MethodValue)) :=
  (keysObj metaDataByContract).foldlM
    (normalizeStep metaDataByContract balanceDataByContract formatBalance) []

/-! ## Concrete data shared by the normalizer and decoder developments -/

/-- The 32-byte big-endian encoding of 1000000 as a hex string. -/
def rawMillion : String :=
  "0x00000000000000000000000000000000000000000000000000000000000f4240"

/-- The ASCII text USDC null-padded into a raw 32-byte word, the
non-compliant return shape some tokens use for symbol and name. -/
def usdcB32 : String :=
  "0x5553444300000000000000000000000000000000000000000000000000000000"

/-- A decoded metadata entry of a six-decimal token. -/
def tokenMeta6 : Obj MethodValue :=
  [("symbol", MethodValue.str "TOK"), ("decimals", MethodValue.num (JsNum.num 6)),
   ("name", MethodValue.str "Token")]

/-- Claim C4 counterexample: with decimals 6 and a raw balance of 1000000,
the human-readable balance string the code produces is "1.0", not "1": the
library formatter keeps at least one fractional digit. -/
theorem balancesByContract_roundtrip_counterexample :
    balancesByContract [("0xtoken", tokenMeta6)] [("0xtoken", rawMillion)] true =
      some [("0xtoken",
        [("symbol", MethodValue.str "TOK"),
         ("decimals", MethodValue.num (JsNum.num 6)),
         ("name", MethodValue.str "Token"),
         ("balanceOf", MethodValue.str "1.0")])] ∧
    "1.0" ≠ "1" :=
  ⟨by decide, by decide⟩

lemma formatUnits_natDecimals (v d : Nat) (hd80 : d ≤ 80) :
    formatUnits v (some (MethodValue.num (JsNum.num (d : ℚ)))) =
      some (formatFixed v d) := by
  have hden : ((d : ℚ)).den = 1 := Rat.den_natCast d
  have hnum : ((d : ℚ)).num = (d : Int) := Rat.num_natCast d
  unfold formatUnits
  dsimp only
  rw [if_pos ⟨hden, by rw [hnum]; exact Int.natCast_nonneg d,
      by rw [hnum]; exact_mod_cast hd80⟩]
  rw [hnum, Int.toNat_natCast]

lemma insertObj_nil {α : Type} (k : String) (v : α) : insertObj [] k v = [(k, v)] := rfl

lemma getObj_singleton_self {α : Type} (k : String) (v : α) :
    getObj [(k, v)] k = some v := by
  unfold getObj
  rw [List.find?_cons_of_pos _ (by simp)]
  rfl

/-- Claim C4 as amended: for a metadata entry whose decimals field holds
the integer d (at most 80) and a raw balance decoding to the integer v,
the normalizer stores the ethers fixed-point rendering of v at d decimals
when humanReadable is set (the exact scaled value with at least one
fractional digit, so 1000000 at 6 decimals gives "1.0" rather than "1"),
and the plain decimal rendering of v otherwise ("1000000"). -/
theorem balancesByContract_format (addr : String) (entry : Obj MethodValue)
    (raw : Obj String) (d : Nat) (bal : String) (v : Nat) (fmt : Bool)
    (hd : getObj entry "decimals" = some (MethodValue.num (JsNum.num (d : ℚ))))
    (hd80 : d ≤ 80)
    (hraw : getObj raw addr = some bal)
    (hv : abiDecodeUint 256 bal = some v) :
    (balancesByContract [(addr, entry)] raw fmt =
      some [(addr, insertObj entry "balanceOf"
        (MethodValue.str (if fmt then formatFixed v d else Nat.repr v)))]) ∧
    balancesByContract [("0xtoken", tokenMeta6)] [("0xtoken", rawMillion)] false =
      some [("0xtoken",
        [("symbol", MethodValue.str "TOK"),
         ("decimals", MethodValue.num (JsNum.num 6)),
         ("name", MethodValue.str "Token"),
         ("balanceOf", MethodValue.str "1000000")])] := by
  constructor
  · have hget : getObj [(addr, entry)] addr = some entry := getObj_singleton_self addr entry
    have hstep : normalizeStep [(addr, entry)] raw fmt [] addr =
        some [(addr, insertObj entry "balanceOf"
          (MethodValue.str (if fmt then formatFixed v d else Nat.repr v)))] := by
      have hgd : ((getObj [(addr, entry)] addr).getD []) = entry := by
        rw [hget]
        rfl
      cases fmt with
      | true =>
        have hfu : formatUnits v (getObj entry "decimals") = some (formatFixed v d) := by
          rw [hd]
          exact formatUnits_natDecimals v d hd80
        simp [normalizeStep, hgd, hraw, hv, hfu, insertObj_nil]
      | false =>
        simp [normalizeStep, hgd, hraw, hv, insertObj_nil]
    unfold balancesByContract
    have hkeys : keysObj [(addr, entry)] = [addr] := rfl
    rw [hkeys, List.foldlM_cons, hstep]
    simp [List.foldlM_nil]
  · decide

theorem balancesByContract_format_witness :
    (getObj tokenMeta6 "decimals" =
       some (MethodValue.num (JsNum.num ((6 : Nat) : ℚ))) ∧
     (6 : Nat) ≤ 80 ∧
     getObj [("0xtoken", rawMillion)] "0xtoken" = some rawMillion ∧
     abiDecodeUint 256 rawMillion = some 1000000) ∧
    (balancesByContract [("0xtoken", tokenMeta6)] [("0xtoken", rawMillion)] true =
      some [("0xtoken", insertObj tokenMeta6 "balanceOf"
        (MethodValue.str (if true then formatFixed 1000000 6 else Nat.repr 1000000)))]) :=
  ⟨⟨by decide, by decide, by decide, by decide⟩,
   (balancesByContract_format "0xtoken" tokenMeta6 [("0xtoken", rawMillion)] 6 rawMillion
      1000000 true (by decide) (by decide) (by decide) (by decide)).1⟩

lemma normalizeStep_eq_insert {meta : Obj (Obj MethodValue)} {raw : Obj String}
    {fmt : Bool} {acc acc2 : Obj (Obj MethodValue)} {k : String}
    (h : normalizeStep meta raw fmt acc k = some acc2) :
    ∃ ev, acc2 = insertObj acc k ev := by
  unfold normalizeStep at h
  cases fmt with
  | true =>
    simp only [Option.bind_eq_bind, Option.bind_eq_some, if_true] at h
    obtain ⟨bal, _, dec, _, balstr, _, h⟩ := h
    exact ⟨_, (Option.some.inj h).symm⟩
  | false =>
    simp only [Option.bind_eq_bind, Option.bind_eq_some, if_false,
      Bool.false_eq_true] at h
    obtain ⟨bal, _, dec, _, balstr, _, h⟩ := h
    exact ⟨_, (Option.some.inj h).symm⟩

lemma foldlM_normalize_keys (meta : Obj (Obj MethodValue)) (raw : Obj String)
    (fmt : Bool) :
    ∀ (ks : List String) (acc out : Obj (Obj MethodValue)),
      ks.foldlM (normalizeStep meta raw fmt) acc = some out →
      ∀ k, (k ∈ keysObj out ↔ k ∈ keysObj acc ∨ k ∈ ks) := by
  intro ks
  induction ks with
  | nil =>
    intro acc out h k
    rw [List.foldlM_nil] at h
    have hout : acc = out := Option.some.inj h
    subst hout
    simp
  | cons k0 rest ih =>
    intro acc out h k
    rw [List.foldlM_cons] at h
    rw [Option.bind_eq_bind, Option.bind_eq_some] at h
    obtain ⟨acc1, h1, h2⟩ := h
    obtain ⟨ev, hins⟩ := normalizeStep_eq_insert h1
    subst hins
    have hrec := ih _ _ h2 k
    rw [hrec, mem_keysObj_insertObj]
    simp only [List.mem_cons]
    tauto

/-- Claim C7: whenever the normalizer completes, the key set of its result
coincides exactly with the key set of the metadata map: every metadata key
appears in the output, and keys present only in the raw-balance map are
silently absent from the output. -/
theorem balancesByContract_key_set (meta : Obj (Obj MethodValue)) (raw : Obj String)
    (fmt : Bool) (out : Obj (Obj MethodValue))
    (h : balancesByContract meta raw fmt = some out) :
    ∀ k, k ∈ keysObj out ↔ k ∈ keysObj meta := by
  intro k
  have hk := foldlM_normalize_keys meta raw fmt (keysObj meta) [] out h k
  simpa [keysObj] using hk

theorem balancesByContract_key_set_witness :
    (balancesByContract [("0xtoken", tokenMeta6)]
        [("0xtoken", rawMillion), ("0xextra", "0x01")] true =
      some [("0xtoken",
        [("symbol", MethodValue.str "TOK"),
         ("decimals", MethodValue.num (JsNum.num 6)),
         ("name", MethodValue.str "Token"),
         ("balanceOf", MethodValue.str "1.0")])]) ∧
    (("0xtoken" ∈ keysObj [("0xtoken",
        [("symbol", MethodValue.str "TOK"),
         ("decimals", MethodValue.num (JsNum.num 6)),
         ("name", MethodValue.str "Token"),
         ("balanceOf", MethodValue.str "1.0")])]) ↔
      "0xtoken" ∈ keysObj [("0xtoken", tokenMeta6)]) ∧
    (("0xextra" ∈ keysObj [("0xtoken",
        [("symbol", MethodValue.str "TOK"),
         ("decimals", MethodValue.num (JsNum.num 6)),
         ("name", MethodValue.str "Token"),
         ("balanceOf", MethodValue.str "1.0")])]) ↔
      "0xextra" ∈ keysObj [("0xtoken", tokenMeta6)]) :=
  ⟨by decide,
   balancesByContract_key_set [("0xtoken", tokenMeta6)]
     [("0xtoken", rawMillion), ("0xextra", "0x01")] true _ (by decide) "0xtoken",
   balancesByContract_key_set [("0xtoken", tokenMeta6)]
     [("0xtoken", rawMillion), ("0xextra", "0x01")] true _ (by decide) "0xextra"⟩

/-! ## Decoder fallback development -/

/-- An entry decodes without throwing: either the standard path or the
fallback path of decodeEntry yields a value. -/
def entryOk (p : CallResult × CallContext) : Bool :=
  (decodeEntry p.1 p.2).isSome

lemma decodeMetaGo_append (qsR : List CallResult) (qsC : List CallContext) :
    ∀ (ps : List (CallResult × CallContext)) (meta : Obj (Obj MethodValue))
      (infos : List String),
      decodeMetaGo (ps.map Prod.fst ++ qsR) (ps.map Prod.snd ++ qsC) meta infos =
        match decodeMetaGo (ps.map Prod.fst) (ps.map Prod.snd) meta infos with
        | some mi => decodeMetaGo qsR qsC mi.1 mi.2
        | none => none := by
  intro ps
  induction ps with
  | nil => intro meta infos; rfl
  | cons p rest ih =>
    intro meta infos
    simp only [List.map_cons, List.cons_append]
    cases hde : decodeEntry p.1 p.2 with
    | none => simp [decodeMetaGo, hde]
    | some vm =>
      obtain ⟨v, msg⟩ := vm
      simp only [decodeMetaGo, hde]
      exact ih _ _

lemma decodeMetaGo_ok :
    ∀ (ps : List (CallResult × CallContext)) (meta : Obj (Obj MethodValue))
      (infos : List String),
      (∀ p ∈ ps, entryOk p = true) →
      ∃ out extra,
        decodeMetaGo (ps.map Prod.fst) (ps.map Prod.snd) meta infos =
          some (out, infos ++ extra) := by
  intro ps
  induction ps with
  | nil =>
    intro meta infos _
    exact ⟨meta, [], by simp [decodeMetaGo]⟩
  | cons p rest ih =>
    intro meta infos hok
    have h1 : (decodeEntry p.1 p.2).isSome = true := hok p (by simp)
    obtain ⟨vm, hvm⟩ := Option.isSome_iff_exists.mp h1
    obtain ⟨v, msg⟩ := vm
    obtain ⟨out, extra, hrec⟩ :=
      ih (insertNested meta p.2.contractAddress p.2.methodName v)
        (infos ++ msg.toList) (fun q hq => hok q (by simp [hq]))
    refine ⟨out, msg.toList ++ extra, ?_⟩
    simp only [List.map_cons, decodeMetaGo, hvm]
    rw [hrec, List.append_assoc]

/-- Claim C6: a metadata entry whose standard ABI decode per the static
method-to-type table fails but whose return data is a well-formed 32-byte
null-padded string does not make decodeMetaResults throw: the entry is
decoded by the fallback, the informational diagnostic for it is emitted,
and the remaining entries are processed (here under the hypothesis that
each of them decodes by one of the two paths). -/
theorem decodeMetaResults_fallback (pre post : List (CallResult × CallContext))
    (r : CallResult) (c : CallContext) (s : String)
    (hstd : stdDecode c.methodName r.2 = none)
    (hfb : decodeBytes32String r.2 = some s)
    (hok : ∀ p ∈ pre ++ post, entryOk p = true) :
    ∃ out infos,
      decodeMetaResults ((pre ++ (r, c) :: post).map Prod.fst)
          ((pre ++ (r, c) :: post).map Prod.snd) = some (out, infos) ∧
        infoMsg c.methodName c.contractAddress ∈ infos := by
  unfold decodeMetaResults
  rw [List.map_append, List.map_append,
    decodeMetaGo_append (((r, c) :: post).map Prod.fst)
      (((r, c) :: post).map Prod.snd) pre [] []]
  obtain ⟨m1, e1, hpre⟩ :=
    decodeMetaGo_ok pre [] []
      (fun q hq => hok q (List.mem_append.mpr (Or.inl hq)))
  rw [hpre]
  have hde : decodeEntry r c =
      some (applyDecimalsCoercion c.methodName (MethodValue.str s),
            some (infoMsg c.methodName c.contractAddress)) := by
    unfold decodeEntry
    rw [hstd, hfb]
  simp only [List.map_cons, decodeMetaGo, hde]
  obtain ⟨out, e2, hpost⟩ :=
    decodeMetaGo_ok post
      (insertNested m1 c.contractAddress c.methodName
        (applyDecimalsCoercion c.methodName (MethodValue.str s)))
      (([] ++ e1) ++ [infoMsg c.methodName c.contractAddress])
      (fun q hq => hok q (List.mem_append.mpr (Or.inr hq)))
  refine ⟨out, (([] ++ e1) ++ [infoMsg c.methodName c.contractAddress]) ++ e2, ?_, ?_⟩
  · simpa using hpost
  · simp

theorem decodeMetaResults_fallback_witness :
    (stdDecode "symbol" usdcB32 = none ∧
     decodeBytes32String usdcB32 = some "USDC") ∧
    (∃ out infos,
      decodeMetaResults [(true, usdcB32)]
          [{ contractAddress := "0xc", methodName := "symbol" }] = some (out, infos) ∧
        infoMsg "symbol" "0xc" ∈ infos) :=
  ⟨⟨by decide, by decide⟩,
   decodeMetaResults_fallback [] [] (true, usdcB32)
     { contractAddress := "0xc", methodName := "symbol" } "USDC"
     (by decide) (by decide) (by intro p hp; simp at hp)⟩

/-- Claim C10 counterexample: a decimals entry that takes the fallback
path (its standard decode fails, here on two-byte data) makes the decoder
fail: the fallback bytes32 decode throws instead of recording a value, so
decodeMetaResults does not continue and stores nothing. -/
theorem decodeMetaResults_decimals_counterexample :
    stdDecode "decimals" "0xdead" = none ∧
    decodeMetaResults [(true, "0xdead")]
      [{ contractAddress := "0xdec", methodName := "decimals" }] = none :=
  ⟨by decide, by decide⟩

/-- Claim C10 as amended: whenever the standard decode of a decimals entry
fails, the bytes32-string fallback necessarily fails as well (the uint8
decoder masks any well-formed 32-byte word, so a failing standard decode
means the data has no 32-byte word, which the fallback requires), and
decodeMetaResults therefore throws at that entry; no coerced fallback
value, NaN or otherwise, is ever stored for decimals. -/
theorem decodeMetaResults_decimals_fallback_fails (data : String) (b : Bool)
    (addr : String) (hstd : stdDecode "decimals" data = none) :
    decodeBytes32String data = none ∧
    decodeMetaResults [(b, data)]
      [{ contractAddress := addr, methodName := "decimals" }] = none := by
  have habi : abiDecodeUint 8 data = none := by
    have hty : getObj fragmentTypes "decimals" = some "uint8" := by decide
    have heq : stdDecode "decimals" data =
        (abiDecodeUint 8 data).map
          (fun (n : Nat) => MethodValue.num (JsNum.num (n : ℚ))) := by
      unfold stdDecode
      rw [hty]
      dsimp only
      rw [if_neg (by decide), if_pos rfl]
    have h := hstd
    rw [heq] at h
    exact Option.map_eq_none'.mp h
  have hfb : decodeBytes32String data = none := by
    unfold abiDecodeUint at habi
    cases hhex : hexToBytes data with
    | none =>
      unfold decodeBytes32String
      rw [hhex]
      rfl
    | some bs =>
      rw [hhex] at habi
      simp only [Option.bind_eq_bind, Option.some_bind] at habi
      have hw : wordAt bs 0 = none := by
        cases hw0 : wordAt bs 0 with
        | none => rfl
        | some w => rw [hw0] at habi; simp at habi
      have hlen : bs.length < 32 := by
        unfold wordAt at hw
        by_contra hc
        rw [if_pos (by omega)] at hw
        exact Option.some_ne_none _ hw
      unfold decodeBytes32String
      rw [hhex]
      have hne : ¬ (bs.length = 32) := by omega
      simp [hne]
  refine ⟨hfb, ?_⟩
  have hde : decodeEntry (b, data)
      { contractAddress := addr, methodName := "decimals" } = none := by
    unfold decodeEntry
    rw [show ((b, data) : CallResult).2 = data from rfl]
    rw [hstd, hfb]
  unfold decodeMetaResults
  simp [decodeMetaGo, hde]

theorem decodeMetaResults_decimals_fallback_fails_witness :
    stdDecode "decimals" "0x" = none ∧
    (decodeBytes32String "0x" = none ∧
     decodeMetaResults [(false, "0x")]
       [{ contractAddress := "0xd", methodName := "decimals" }] = none) :=
  ⟨by decide,
   decodeMetaResults_decimals_fallback_fails "0x" false "0xd" (by decide)⟩

end EthBalances
